import Mathlib

/-!
Verification of the SEMFE 2D heat-conduction solver (`Solver.py`) and the
chimney mesh generator (`make_chimney_semfe.py`).

The Python code computes with IEEE floating point; we model that arithmetic
exactly, over `ℚ` where the code uses only field operations and over `ℝ`
where it takes square roots (`np.hypot`).  Python exceptions (KeyError /
IndexError) are modelled with `Option`/`Except`; where the code mutates an
array in place, the error value carries the state the caller can still see.
-/

namespace SEMFE

/-- A 2D node coordinate (x, y), as used by the solver (`nodes[conn, :2]`). -/
abbrev Pt := ℚ × ℚ

/-- Signed element area: `0.5 * det [[1,x1,y1],[1,x2,y2],[1,x3,y3]]`
(`Solver.py`, `element_stiffness_triangle`, lines 27–31). -/
def triangleArea (p1 p2 p3 : Pt) : ℚ :=
  (1/2) * (Matrix.of ![![1, p1.1, p1.2], ![1, p2.1, p2.2], ![1, p3.1, p3.2]]).det

/-- Constant shape-function gradient matrix
`B = (1/(2*area)) * [[y2-y3, y3-y1, y1-y2], [x3-x2, x1-x3, x2-x1]]`
(`Solver.py` lines 34–36). -/
def gradB (p1 p2 p3 : Pt) : Matrix (Fin 2) (Fin 3) ℚ :=
  (1 / (2 * triangleArea p1 p2 p3)) •
    Matrix.of ![![p2.2 - p3.2, p3.2 - p1.2, p1.2 - p2.2],
                ![p3.1 - p2.1, p1.1 - p3.1, p2.1 - p1.1]]

/-- `Ke = k * area * (B.T @ B)` (`Solver.py` line 37) — note the *signed*
area is used, not its absolute value. -/
def element_stiffness_triangle (p1 p2 p3 : Pt) (k : ℚ) : Matrix (Fin 3) (Fin 3) ℚ :=
  (k * triangleArea p1 p2 p3) • (Matrix.transpose (gradB p1 p2 p3) * gradB p1 p2 p3)

/-- The element matrix as the spec describes it: `k · |area| · BᵀB`
(spec §4.1).  Stated separately only to compare against the code's
`element_stiffness_triangle`. -/
def specStiffnessAbsArea (p1 p2 p3 : Pt) (k : ℚ) : Matrix (Fin 3) (Fin 3) ℚ :=
  (k * |triangleArea p1 p2 p3|) • (Matrix.transpose (gradB p1 p2 p3) * gradB p1 p2 p3)

/-! ### Global assembly (`assemble_global`, Solver.py lines 41–67) -/

/-- An element's connectivity row `conn = elems[e]` as a function `Fin 3 → Fin n`. -/
def elemConn {n : ℕ} (el : Fin n × Fin n × Fin n) : Fin 3 → Fin n :=
  ![el.1, el.2.1, el.2.2]

/-- The element stiffness matrix of one element of the mesh
(`Ke = element_stiffness_triangle(coords, k)` with `coords = nodes[conn, :2]`). -/
def elemKe {n : ℕ} (nodes : Fin n → Pt) (k : ℚ) (el : Fin n × Fin n × Fin n) :
    Matrix (Fin 3) (Fin 3) ℚ :=
  element_stiffness_triangle (nodes el.1) (nodes el.2.1) (nodes el.2.2) k

/-- The total contribution of one element to global entry (a, b): the sum of
its 9 scattered (local row, local col) entries that land there.  COO→CSR
conversion sums duplicate triplets, which this models. -/
def scatterContrib {n : ℕ} (nodes : Fin n → Pt) (k : ℚ) (el : Fin n × Fin n × Fin n)
    (a b : Fin n) : ℚ :=
  ∑ i : Fin 3, ∑ j : Fin 3,
    if elemConn el i = a ∧ elemConn el j = b then elemKe nodes k el i j else 0

/-- `assemble_global`: accumulate every element's scattered stiffness entries
into the global matrix (triplet list summed by `coo_matrix(...).tocsr()`). -/
def assemble_global {n : ℕ} (nodes : Fin n → Pt) (elems : List (Fin n × Fin n × Fin n))
    (k : ℚ) : Matrix (Fin n) (Fin n) ℚ :=
  Matrix.of fun a b => (elems.map fun el => scatterContrib nodes k el a b).sum

/-! ### Dirichlet elimination (`apply_dirichlet`, Solver.py lines 70–87) and
`solve_system` (lines 170–173) -/

/-- One iteration of the `apply_dirichlet` loop: read the current column
`col = K[:, node]`, set `f -= col * val`, zero row and column `node`, set
`K[node, node] = 1`, `f[node] = val`. -/
def dirichletStep {n : ℕ} (Kf : Matrix (Fin n) (Fin n) ℚ × (Fin n → ℚ))
    (bc : Fin n × ℚ) : Matrix (Fin n) (Fin n) ℚ × (Fin n → ℚ) :=
  let K := Kf.1
  let f := Kf.2
  let node := bc.1
  let val := bc.2
  let col : Fin n → ℚ := fun i => K i node
  let f1 : Fin n → ℚ := fun i => f i - col i * val
  let K1 : Matrix (Fin n) (Fin n) ℚ :=
    Matrix.of fun i j =>
      if i = node then (if j = node then 1 else 0)
      else if j = node then 0 else K i j
  (K1, Function.update f1 node val)

/-- `apply_dirichlet`: sequential elimination over `zip(bc_nodes, bc_values)`,
starting from copies of K and f. -/
def apply_dirichlet {n : ℕ} (K : Matrix (Fin n) (Fin n) ℚ) (f : Fin n → ℚ)
    (bc_nodes : List (Fin n)) (bc_values : List ℚ) :
    Matrix (Fin n) (Fin n) ℚ × (Fin n → ℚ) :=
  (bc_nodes.zip bc_values).foldl dirichletStep (K, f)

/-- Modelled from the spec: `solve_system` delegates to scipy's external
sparse direct solver (`spla.spsolve`), which is not code of this repository;
per spec §4.4 it returns a vector u with K·u = f. -/
def SolvesSystem {n : ℕ} (K : Matrix (Fin n) (Fin n) ℚ) (f u : Fin n → ℚ) : Prop :=
  K.mulVec u = f

/-- Row `m` of K is the unit row e_m. -/
def RowUnit {n : ℕ} (K : Matrix (Fin n) (Fin n) ℚ) (m : Fin n) : Prop :=
  ∀ j, K m j = if j = m then 1 else 0

/-! ### Neumann heat flux (`apply_heat_flux`, Solver.py lines 103–122) and
Robin convection (`apply_convection`, lines 125–167).

These compute Euclidean edge lengths with `np.hypot`, so this part of the
model lives over `ℝ`. -/

/-- A node coordinate over the reals. -/
abbrev PtR := ℝ × ℝ

/-- The local-edge-to-node-pair dict `{1:(0,1), 2:(1,2), 3:(2,0)}`; `none`
models the KeyError raised for any other edge id. -/
def edgeTable (edge_id : ℕ) : Option (Fin 3 × Fin 3) :=
  if edge_id = 1 then some (0, 1)
  else if edge_id = 2 then some (1, 2)
  else if edge_id = 3 then some (2, 0)
  else none

/-- `np.hypot(dx, dy)`. -/
noncomputable def hypot (dx dy : ℝ) : ℝ := Real.sqrt (dx ^ 2 + dy ^ 2)

/-- One iteration of the `apply_heat_flux` loop.  `none` models the Python
exception for an unknown edge id (KeyError) or an out-of-range element id
(IndexError), both raised before this iteration writes anything.  NumPy's
fancy-indexed `f[conn[edge_nodes]] += fe` gathers the addends from the
pre-state and scatters with last-write-wins on a duplicated index, which the
two updates (each reading the original `f`) reproduce. -/
noncomputable def heatFluxStep {n : ℕ} (nodes : Fin n → PtR)
    (elems : List (Fin n × Fin n × Fin n)) (bc : ℕ × ℕ × ℝ) (f : Fin n → ℝ) :
    Option (Fin n → ℝ) := do
  let conn ← elems[bc.1]?
  let en ← edgeTable bc.2.1
  let q := bc.2.2
  let p1 := nodes (elemConn conn en.1)
  let p2 := nodes (elemConn conn en.2)
  let L := hypot (p2.1 - p1.1) (p2.2 - p1.2)
  let f1 := Function.update f (elemConn conn en.1) (f (elemConn conn en.1) + q * L * (1/2))
  some (Function.update f1 (elemConn conn en.2) (f (elemConn conn en.2) + q * L * (1/2)))

/-- `apply_heat_flux`: processes the BC list in order, mutating the caller's
`f` in place.  When an iteration raises, the caller still sees every update
made by earlier iterations, so the error value carries that partial state. -/
noncomputable def apply_heat_flux {n : ℕ} (nodes : Fin n → PtR)
    (elems : List (Fin n × Fin n × Fin n)) (bcs : List (ℕ × ℕ × ℝ)) (f : Fin n → ℝ) :
    Except (Fin n → ℝ) (Fin n → ℝ) :=
  match bcs with
  | [] => .ok f
  | bc :: rest =>
    match heatFluxStep nodes elems bc f with
    | some f' => apply_heat_flux nodes elems rest f'
    | none => .error f

/-- The load increment one valid Neumann BC adds at global node `j`:
q·L/2 at each of the BC's two edge nodes and 0 elsewhere. -/
noncomputable def heatFluxContrib {n : ℕ} (nodes : Fin n → PtR)
    (elems : List (Fin n × Fin n × Fin n)) (bc : ℕ × ℕ × ℝ) (j : Fin n) : ℝ :=
  match elems[bc.1]?, edgeTable bc.2.1 with
  | some conn, some en =>
    let p1 := nodes (elemConn conn en.1)
    let p2 := nodes (elemConn conn en.2)
    let L := hypot (p2.1 - p1.1) (p2.2 - p1.2)
    (if j = elemConn conn en.1 then bc.2.2 * L * (1/2) else 0) +
    (if j = elemConn conn en.2 then bc.2.2 * L * (1/2) else 0)
  | _, _ => 0

/-- A Neumann BC is valid: its element id is in range, its local edge id is
in {1,2,3}, and the edge's two global nodes are distinct. -/
def ValidFluxBC {n : ℕ} (elems : List (Fin n × Fin n × Fin n)) (bc : ℕ × ℕ × ℝ) : Prop :=
  ∃ conn en, elems[bc.1]? = some conn ∧ edgeTable bc.2.1 = some en ∧
    elemConn conn en.1 ≠ elemConn conn en.2

/-- Test fixture: the reference triangle's node coordinates over ℝ. -/
noncomputable def nodesT : Fin 3 → PtR := ![(0, 0), (1, 0), (0, 1)]

/-- Test fixture: a one-element mesh over those nodes. -/
def elemsT : List (Fin 3 × Fin 3 × Fin 3) := [(0, 1, 2)]

/-- The load vector left behind by the first BC of the C3 scenario. -/
noncomputable def fluxPartial : Fin 3 → ℝ := fun j => if j = 0 ∨ j = 1 then 1 else 0

/-- In-place entry update `K[I, J] += v` on the lil-format working copy. -/
def addEntry {n : ℕ} (K : Matrix (Fin n) (Fin n) ℝ) (I J : Fin n) (v : ℝ) :
    Matrix (Fin n) (Fin n) ℝ :=
  Matrix.of fun a b => if a = I ∧ b = J then K a b + v else K a b

/-- Euclidean length of an element's local edge `en`, from the two node
coordinates (`L = np.hypot(x2 - x1, y2 - y1)`). -/
noncomputable def edgeL {n : ℕ} (nodes : Fin n → PtR) (conn : Fin n × Fin n × Fin n)
    (en : Fin 3 × Fin 3) : ℝ :=
  hypot ((nodes (elemConn conn en.2)).1 - (nodes (elemConn conn en.1)).1)
    ((nodes (elemConn conn en.2)).2 - (nodes (elemConn conn en.1)).2)

/-- One iteration of the `apply_convection` loop: resolve the edge, compute
L, then perform, in the loop's order, the two `f[I] += fe_edge[i_local]`
updates and the four `K[I, J] += Ke_edge[i_local, j_local]` updates, with
`Ke_edge = (h·L/6)·[[2,1],[1,2]]` and `fe_edge = (h·T∞·L/2)·[1,1]`.
`none` models the IndexError/KeyError for a bad element/edge id (raised
before any write; K and f here are function copies, so a failure discards
them, matching `tolil(copy=True)` / `f.copy()`). -/
noncomputable def convectionStep {n : ℕ} (nodes : Fin n → PtR)
    (elems : List (Fin n × Fin n × Fin n)) (bc : ℕ × ℕ × ℝ × ℝ)
    (Kf : Matrix (Fin n) (Fin n) ℝ × (Fin n → ℝ)) :
    Option (Matrix (Fin n) (Fin n) ℝ × (Fin n → ℝ)) := do
  let conn ← elems[bc.1]?
  let en ← edgeTable bc.2.1
  let h := bc.2.2.1
  let Tinf := bc.2.2.2
  let L := edgeL nodes conn en
  let I := elemConn conn en.1
  let J := elemConn conn en.2
  let f1 := Function.update Kf.2 I (Kf.2 I + h * Tinf * L / 2)
  let K1 := addEntry (addEntry Kf.1 I I (h * L / 6 * 2)) I J (h * L / 6 * 1)
  let f2 := Function.update f1 J (f1 J + h * Tinf * L / 2)
  let K2 := addEntry (addEntry K1 J I (h * L / 6 * 1)) J J (h * L / 6 * 2)
  some (K2, f2)

/-- `apply_convection`: fold the Robin BCs over working copies of (K, f);
a Python exception discards the copies, so the error case carries nothing. -/
noncomputable def apply_convection {n : ℕ} (nodes : Fin n → PtR)
    (elems : List (Fin n × Fin n × Fin n)) (bcs : List (ℕ × ℕ × ℝ × ℝ))
    (K : Matrix (Fin n) (Fin n) ℝ) (f : Fin n → ℝ) :
    Option (Matrix (Fin n) (Fin n) ℝ × (Fin n → ℝ)) :=
  match bcs with
  | [] => some (K, f)
  | bc :: rest =>
    match convectionStep nodes elems bc (K, f) with
    | some Kf' => apply_convection nodes elems rest Kf'.1 Kf'.2
    | none => none

/-! ### Mesh cleanup / reindex (`make_chimney_semfe.py`, `cleanup`,
lines 159–192) -/

/-- A boundary-edge record `(a, b, elem_id, local_edge_id)`. -/
abbrev EdgeRec := ℕ × ℕ × ℕ × ℕ

/-- The set of node ids referenced by at least one element (the Python
`used` set before sorting). -/
def usedSet (elems : List (ℕ × ℕ × ℕ)) : Finset ℕ :=
  elems.foldl (fun s t => insert t.1 (insert t.2.1 (insert t.2.2 s))) ∅

/-- `used = sorted(list(set(...)))`. -/
def usedNodes (elems : List (ℕ × ℕ × ℕ)) : List ℕ :=
  (usedSet elems).sort (· ≤ ·)

/-- `mapping = {old: new for new, old in enumerate(used)}`: an old id's new
id is its position in the sorted `used` list. -/
def nodeMapping (elems : List (ℕ × ℕ × ℕ)) (o : ℕ) : ℕ :=
  (usedNodes elems).indexOf o

/-- `new_nodes = [nodes[i] for i in used]` (in-range indices; Python raises
IndexError for a mesh whose elements reference missing nodes). -/
def cleanupNodes (nodes : List Pt) (elems : List (ℕ × ℕ × ℕ)) : List Pt :=
  (usedNodes elems).map fun i => nodes.getD i (0, 0)

/-- `new_elems`: every element's three node ids remapped. -/
def cleanupElems (elems : List (ℕ × ℕ × ℕ)) : List (ℕ × ℕ × ℕ) :=
  elems.map fun t => (nodeMapping elems t.1, nodeMapping elems t.2.1, nodeMapping elems t.2.2)

/-- `remap(edges)`: a boundary-edge group's node ids remapped through the
same mapping (element id and local edge id kept). -/
def remapEdges (elems : List (ℕ × ℕ × ℕ)) (edges : List EdgeRec) : List EdgeRec :=
  edges.map fun r => (nodeMapping elems r.1, nodeMapping elems r.2.1, r.2.2.1, r.2.2.2)

/-- `cleanup`: drop unreferenced nodes, reindex densely and order-preserving,
remap elements and all five boundary-edge groups. -/
def cleanup (nodes : List Pt) (elems : List (ℕ × ℕ × ℕ))
    (bottom right top left inner : List EdgeRec) :
    List Pt × List (ℕ × ℕ × ℕ) ×
      List EdgeRec × List EdgeRec × List EdgeRec × List EdgeRec × List EdgeRec :=
  (cleanupNodes nodes elems, cleanupElems elems,
   remapEdges elems bottom, remapEdges elems right, remapEdges elems top,
   remapEdges elems left, remapEdges elems inner)

/-! ### Chimney mesh generation (`make_chimney_semfe.py`, module constants
lines 14–19 and `generate_chimney_mesh`, lines 34–85) -/

/-- Outer rectangle width, 0.8. -/
def OUTER_W : ℚ := 4/5

/-- Outer rectangle height, 0.6. -/
def OUTER_H : ℚ := 3/5

/-- Hole rectangle bounds 0.2, 0.6, 0.2, 0.4. -/
def HOLE_X1 : ℚ := 1/5

def HOLE_X2 : ℚ := 3/5

def HOLE_Y1 : ℚ := 1/5

def HOLE_Y2 : ℚ := 2/5

/-- `nid(i, j) = j * n_nodes_x + i` with `n_nodes_x = nx + 1`. -/
def nid (nx i j : ℕ) : ℕ := j * (nx + 1) + i

/-- The structured grid nodes, row-major (j outer, i inner), coordinates
`(i * dx, j * dy)` with `dx = OUTER_W / nx`, `dy = OUTER_H / ny`. -/
def chimneyNodes (nx ny : ℕ) : List Pt :=
  (List.range (ny + 1)).flatMap fun j : ℕ =>
    (List.range (nx + 1)).map fun i : ℕ =>
      ((i : ℚ) * (OUTER_W / nx), (j : ℚ) * (OUTER_H / ny))

/-- One grid cell's elements: skipped (`continue`) when the cell center
`((i+0.5)dx, (j+0.5)dy)` falls strictly inside the hole rectangle, else the
two triangles `(n1, n2, n4)` and `(n2, n3, n4)`. -/
def cellElems (nx ny i j : ℕ) : List (ℕ × ℕ × ℕ) :=
  let dx := OUTER_W / nx
  let dy := OUTER_H / ny
  let xc := ((i : ℚ) + 1/2) * dx
  let yc := ((j : ℚ) + 1/2) * dy
  if HOLE_X1 < xc ∧ xc < HOLE_X2 ∧ HOLE_Y1 < yc ∧ yc < HOLE_Y2 then []
  else
    [(nid nx i j, nid nx (i+1) j, nid nx i (j+1)),
     (nid nx (i+1) j, nid nx (i+1) (j+1), nid nx i (j+1))]

/-- The element list of `generate_chimney_mesh` (j outer, i inner). -/
def chimneyElems (nx ny : ℕ) : List (ℕ × ℕ × ℕ) :=
  (List.range ny).flatMap fun j => (List.range nx).flatMap fun i => cellElems nx ny i j

/-! ### Theorems -/

theorem triangleArea_eq (p1 p2 p3 : Pt) :
    triangleArea p1 p2 p3 =
      (1/2) * ((p2.1 - p1.1) * (p3.2 - p1.2) - (p3.1 - p1.1) * (p2.2 - p1.2)) := by
  simp [triangleArea, Matrix.det_fin_three, Matrix.vecHead, Matrix.vecTail]
  ring

theorem stiffness_apply (p1 p2 p3 : Pt) (k : ℚ) (i j : Fin 3) :
    element_stiffness_triangle p1 p2 p3 k i j =
      k * triangleArea p1 p2 p3 *
        (gradB p1 p2 p3 0 i * gradB p1 p2 p3 0 j +
         gradB p1 p2 p3 1 i * gradB p1 p2 p3 1 j) := by
  simp [element_stiffness_triangle, Matrix.mul_apply, Fin.sum_univ_two,
    Matrix.transpose_apply]

/-- C1, counterexample: on the clockwise triangle (0,0),(0,1),(1,0) with
k = 1 the signed area is −1/2, and the code returns `k·area·BᵀB`, whose
(0,0) entry is −1, while the spec's `k·|area|·BᵀB` has (0,0) entry 1: the
returned matrix is not `k·|area|·BᵀB` and is not winding-independent. -/
theorem c1_counterexample :
    element_stiffness_triangle (0, 0) (0, 1) (1, 0) 1 0 0 = -1 ∧
    specStiffnessAbsArea (0, 0) (0, 1) (1, 0) 1 0 0 = 1 ∧
    element_stiffness_triangle (0, 0) (0, 1) (1, 0) 1 ≠
      specStiffnessAbsArea (0, 0) (0, 1) (1, 0) 1 := by
  have h1 : element_stiffness_triangle (0, 0) (0, 1) (1, 0) 1 0 0 = -1 := by
    rw [stiffness_apply]
    norm_num [gradB, triangleArea_eq]
  have h2 : specStiffnessAbsArea (0, 0) (0, 1) (1, 0) 1 0 0 = 1 := by
    have : |triangleArea (0, 0) (0, 1) (1, 0)| = 1/2 := by
      norm_num [triangleArea_eq]
    simp only [specStiffnessAbsArea, this, Matrix.smul_apply, Matrix.mul_apply,
      Fin.sum_univ_two, Matrix.transpose_apply]
    norm_num [gradB, triangleArea_eq]
  refine ⟨h1, h2, fun hcontra => ?_⟩
  rw [hcontra] at h1
  rw [h1] at h2
  norm_num at h2

/-- C1 (amended): for a triangle with *positive* computed signed area
(counter-clockwise winding) and k > 0, `element_stiffness_triangle` returns
`k·|area|·BᵀB`, and the result is symmetric; for clockwise windings the code
returns the negation of that matrix, so the result is winding-dependent. -/
theorem c1_stiffness_ccw (p1 p2 p3 : Pt) (k : ℚ)
    (harea : 0 < triangleArea p1 p2 p3) (hk : 0 < k) :
    element_stiffness_triangle p1 p2 p3 k = specStiffnessAbsArea p1 p2 p3 k ∧
    Matrix.transpose (element_stiffness_triangle p1 p2 p3 k) =
      element_stiffness_triangle p1 p2 p3 k := by
  constructor
  · unfold element_stiffness_triangle specStiffnessAbsArea
    rw [abs_of_pos harea]
  · unfold element_stiffness_triangle
    rw [Matrix.transpose_smul, Matrix.transpose_mul, Matrix.transpose_transpose]

/-- C1 witness: the counter-clockwise unit right triangle. -/
theorem c1_witness :
    0 < triangleArea (0, 0) (1, 0) (0, 1) ∧ (0 : ℚ) < 1 ∧
    element_stiffness_triangle (0, 0) (1, 0) (0, 1) 1 =
      specStiffnessAbsArea (0, 0) (1, 0) (0, 1) 1 := by
  have h : 0 < triangleArea (0, 0) (1, 0) (0, 1) := by norm_num [triangleArea_eq]
  exact ⟨h, one_pos, (c1_stiffness_ccw (0, 0) (1, 0) (0, 1) 1 h one_pos).1⟩

/-- C4: on the collinear input (0,0),(1,1),(2,2) the computed area is 0; the
code has no degeneracy check — it divides by zero in `1/(2*area)` and still
returns a matrix (of non-finite floats) instead of failing with
`DegenerateElement`. -/
theorem c4_collinear_area_zero :
    triangleArea (0, 0) (1, 1) (2, 2) = 0 := by
  norm_num [triangleArea_eq]

/-- C5: for a non-degenerate triangle and k > 0, every row of the element
stiffness matrix returned by `element_stiffness_triangle` sums to 0. -/
theorem c5_row_sum_zero (p1 p2 p3 : Pt) (k : ℚ)
    (harea : triangleArea p1 p2 p3 ≠ 0) (hk : 0 < k) (i : Fin 3) :
    ∑ j : Fin 3, element_stiffness_triangle p1 p2 p3 k i j = 0 := by
  simp only [Fin.sum_univ_three, stiffness_apply]
  simp only [gradB, Matrix.smul_apply, Matrix.of_apply, Matrix.cons_val',
    Matrix.cons_val_zero, Matrix.cons_val_one, Matrix.head_cons,
    Matrix.empty_val', Matrix.cons_val_fin_one, Matrix.head_fin_const,
    smul_eq_mul]
  fin_cases i <;>
    simp only [Matrix.cons_val_zero, Matrix.cons_val_one, Matrix.head_cons,
      Matrix.cons_val_two, Matrix.tail_cons] <;>
    ring

/-- C5 witness: the unit right triangle with k = 2, row 0. -/
theorem c5_witness :
    triangleArea (0, 0) (1, 0) (0, 1) ≠ 0 ∧ (0 : ℚ) < 2 ∧
    ∑ j : Fin 3, element_stiffness_triangle (0, 0) (1, 0) (0, 1) 2 0 j = 0 := by
  have h : triangleArea (0, 0) (1, 0) (0, 1) ≠ 0 := by norm_num [triangleArea_eq]
  exact ⟨h, by norm_num, c5_row_sum_zero (0, 0) (1, 0) (0, 1) 2 h (by norm_num) 0⟩

theorem elemKe_symm {n : ℕ} (nodes : Fin n → Pt) (k : ℚ) (el : Fin n × Fin n × Fin n)
    (i j : Fin 3) : elemKe nodes k el i j = elemKe nodes k el j i := by
  unfold elemKe
  rw [stiffness_apply, stiffness_apply]
  ring

theorem scatterContrib_symm {n : ℕ} (nodes : Fin n → Pt) (k : ℚ)
    (el : Fin n × Fin n × Fin n) (a b : Fin n) :
    scatterContrib nodes k el a b = scatterContrib nodes k el b a := by
  unfold scatterContrib
  rw [Finset.sum_comm]
  refine Finset.sum_congr rfl fun j _ => Finset.sum_congr rfl fun i _ => ?_
  rw [elemKe_symm]
  exact if_congr and_comm rfl rfl

theorem assemble_global_symm {n : ℕ} (nodes : Fin n → Pt)
    (elems : List (Fin n × Fin n × Fin n)) (k : ℚ) (a b : Fin n) :
    assemble_global nodes elems k a b = assemble_global nodes elems k b a := by
  show (elems.map fun el => scatterContrib nodes k el a b).sum =
    (elems.map fun el => scatterContrib nodes k el b a).sum
  induction elems with
  | nil => rfl
  | cons el rest ih => simp [ih, scatterContrib_symm nodes k el a b]

/-- C6: permuting the element list leaves the assembled global matrix K
unchanged entry by entry (scatter-add only sums contributions), and the
assembled K is symmetric. -/
theorem c6_assembly_perm_and_symm {n : ℕ} (nodes : Fin n → Pt)
    (elems1 elems2 : List (Fin n × Fin n × Fin n)) (k : ℚ)
    (hperm : elems1.Perm elems2) :
    assemble_global nodes elems1 k = assemble_global nodes elems2 k ∧
    ∀ a b, assemble_global nodes elems1 k a b = assemble_global nodes elems1 k b a := by
  constructor
  · funext a b
    exact (hperm.map fun el => scatterContrib nodes k el a b).sum_eq
  · exact assemble_global_symm nodes elems1 k

/-- C6 witness: a two-element mesh (unit square cut into two triangles),
assembled in both element orders. -/
theorem c6_witness :
    ([((0 : Fin 4), (1 : Fin 4), (2 : Fin 4)), ((0 : Fin 4), (2 : Fin 4), (3 : Fin 4))].Perm
      [((0 : Fin 4), (2 : Fin 4), (3 : Fin 4)), ((0 : Fin 4), (1 : Fin 4), (2 : Fin 4))]) ∧
    assemble_global ![(0, 0), (1, 0), (1, 1), (0, 1)]
        [((0 : Fin 4), (1 : Fin 4), (2 : Fin 4)), ((0 : Fin 4), (2 : Fin 4), (3 : Fin 4))] 1 =
      assemble_global ![(0, 0), (1, 0), (1, 1), (0, 1)]
        [((0 : Fin 4), (2 : Fin 4), (3 : Fin 4)), ((0 : Fin 4), (1 : Fin 4), (2 : Fin 4))] 1 := by
  have hperm : ([((0 : Fin 4), (1 : Fin 4), (2 : Fin 4)), ((0 : Fin 4), (2 : Fin 4), (3 : Fin 4))].Perm
      [((0 : Fin 4), (2 : Fin 4), (3 : Fin 4)), ((0 : Fin 4), (1 : Fin 4), (2 : Fin 4))]) :=
    List.Perm.swap _ _ _
  exact ⟨hperm,
    (c6_assembly_perm_and_symm ![(0, 0), (1, 0), (1, 1), (0, 1)] _ _ 1 hperm).1⟩

theorem dirichletStep_establishes {n : ℕ} (Kf : Matrix (Fin n) (Fin n) ℚ × (Fin n → ℚ))
    (node : Fin n) (val : ℚ) :
    RowUnit (dirichletStep Kf (node, val)).1 node ∧
    (dirichletStep Kf (node, val)).2 node = val := by
  constructor
  · intro j
    simp [dirichletStep]
  · simp [dirichletStep]

theorem dirichletStep_preserves {n : ℕ} (Kf : Matrix (Fin n) (Fin n) ℚ × (Fin n → ℚ))
    (node : Fin n) (val : ℚ) (m : Fin n) (v : ℚ) (hm : m ≠ node)
    (hrow : RowUnit Kf.1 m) (hf : Kf.2 m = v) :
    RowUnit (dirichletStep Kf (node, val)).1 m ∧
    (dirichletStep Kf (node, val)).2 m = v := by
  constructor
  · intro j
    simp only [dirichletStep, Matrix.of_apply, if_neg hm]
    by_cases hj : j = node
    · subst hj
      rw [if_pos rfl, if_neg (fun h : j = m => hm (h ▸ rfl))]
    · rw [if_neg hj, hrow j]
  · have hKm : Kf.1 m node = 0 := by
      rw [hrow node, if_neg (fun h : node = m => hm (h ▸ rfl))]
    simp [dirichletStep, Function.update_noteq hm, hKm, hf]

theorem dirichlet_fold_preserves {n : ℕ} (l : List (Fin n × ℚ))
    (Kf : Matrix (Fin n) (Fin n) ℚ × (Fin n → ℚ)) (m : Fin n) (v : ℚ)
    (hm : m ∉ l.map Prod.fst) (hrow : RowUnit Kf.1 m) (hf : Kf.2 m = v) :
    RowUnit (l.foldl dirichletStep Kf).1 m ∧ (l.foldl dirichletStep Kf).2 m = v := by
  induction l generalizing Kf with
  | nil => exact ⟨hrow, hf⟩
  | cons bc rest ih =>
    obtain ⟨node, val⟩ := bc
    simp only [List.map_cons, List.mem_cons] at hm
    push_neg at hm
    obtain ⟨hne, hrest⟩ := hm
    have hstep := dirichletStep_preserves Kf node val m v hne hrow hf
    exact ih (dirichletStep Kf (node, val)) hrest hstep.1 hstep.2

theorem dirichlet_fold_constrained {n : ℕ} (l : List (Fin n × ℚ))
    (Kf : Matrix (Fin n) (Fin n) ℚ × (Fin n → ℚ)) (hnd : (l.map Prod.fst).Nodup) :
    ∀ p ∈ l, RowUnit (l.foldl dirichletStep Kf).1 p.1 ∧
      (l.foldl dirichletStep Kf).2 p.1 = p.2 := by
  induction l generalizing Kf with
  | nil => intro p hp; cases hp
  | cons bc rest ih =>
    simp only [List.map_cons, List.nodup_cons] at hnd
    intro p hp
    rcases List.mem_cons.mp hp with hhead | htail
    · subst hhead
      have hstep := dirichletStep_establishes Kf p.1 p.2
      exact dirichlet_fold_preserves rest _ p.1 p.2 hnd.1 hstep.1 hstep.2
    · exact ih (dirichletStep Kf bc) hnd.2 p htail

theorem dirichlet_fold_unconstrained {n : ℕ} (l : List (Fin n × ℚ))
    (Kf : Matrix (Fin n) (Fin n) ℚ × (Fin n → ℚ)) (i j : Fin n)
    (hi : i ∉ l.map Prod.fst) (hj : j ∉ l.map Prod.fst) :
    (l.foldl dirichletStep Kf).1 i j = Kf.1 i j := by
  induction l generalizing Kf with
  | nil => rfl
  | cons bc rest ih =>
    simp only [List.map_cons, List.mem_cons] at hi hj
    push_neg at hi hj
    rw [List.foldl_cons, ih _ hi.2 hj.2]
    simp [dirichletStep, hi.1, hj.1]

theorem map_fst_zip_sublist {α β : Type} (l1 : List α) (l2 : List β) :
    ((l1.zip l2).map Prod.fst).Sublist l1 := by
  induction l1 generalizing l2 with
  | nil => simp
  | cons a rest ih =>
    cases l2 with
    | nil => simp
    | cons b r2 => simpa using List.Sublist.cons₂ a (ih r2)

/-- C2: after `apply_dirichlet` constrains nodes (no node listed twice),
every vector u that the (spec-modelled, external) solver can return for the
modified system satisfies u[n] = v exactly for each constrained (n, v) pair,
and the modified K is symmetric at all unconstrained row/column pairs
whenever the input K is symmetric. -/
theorem c2_dirichlet_exact {n : ℕ} (K : Matrix (Fin n) (Fin n) ℚ) (f : Fin n → ℚ)
    (bc_nodes : List (Fin n)) (bc_values : List ℚ) (hnd : bc_nodes.Nodup) :
    (∀ u, SolvesSystem (apply_dirichlet K f bc_nodes bc_values).1
        (apply_dirichlet K f bc_nodes bc_values).2 u →
      ∀ p ∈ bc_nodes.zip bc_values, u p.1 = p.2) ∧
    ((∀ i j, K i j = K j i) → ∀ i j, i ∉ bc_nodes → j ∉ bc_nodes →
      (apply_dirichlet K f bc_nodes bc_values).1 i j =
        (apply_dirichlet K f bc_nodes bc_values).1 j i) := by
  have hndz : ((bc_nodes.zip bc_values).map Prod.fst).Nodup :=
    hnd.sublist (map_fst_zip_sublist bc_nodes bc_values)
  have hdef : apply_dirichlet K f bc_nodes bc_values =
      (bc_nodes.zip bc_values).foldl dirichletStep (K, f) := rfl
  constructor
  · intro u hu p hp
    rw [hdef] at hu
    have hc := dirichlet_fold_constrained (bc_nodes.zip bc_values) (K, f) hndz p hp
    have hrow := hc.1
    have hmv : (((bc_nodes.zip bc_values).foldl dirichletStep (K, f)).1.mulVec u) p.1 =
        ((bc_nodes.zip bc_values).foldl dirichletStep (K, f)).2 p.1 := by
      rw [hu]
    rw [hc.2] at hmv
    rw [← hmv]
    simp only [Matrix.mulVec, Matrix.dotProduct]
    rw [Finset.sum_congr rfl fun j _ => by rw [hrow j]]
    simp [ite_mul]
  · intro hsymm i j hi hj
    have hi' : i ∉ (bc_nodes.zip bc_values).map Prod.fst :=
      fun h => hi ((map_fst_zip_sublist bc_nodes bc_values).mem h)
    have hj' : j ∉ (bc_nodes.zip bc_values).map Prod.fst :=
      fun h => hj ((map_fst_zip_sublist bc_nodes bc_values).mem h)
    rw [hdef, dirichlet_fold_unconstrained _ _ i j hi' hj',
      dirichlet_fold_unconstrained _ _ j i hj' hi']
    exact hsymm i j

/-- C2 witness: K = [[2,−1],[−1,2]], f = 0, constrain node 0 to 5; the
modified system forces u[0] = 5 for the solution u = (5, 5/2). -/
theorem c2_witness :
    ([(0 : Fin 2)].Nodup) ∧
    SolvesSystem (apply_dirichlet (Matrix.of ![![2, -1], ![-1, 2]]) ![0, 0] [0] [5]).1
      (apply_dirichlet (Matrix.of ![![2, -1], ![-1, 2]]) ![0, 0] [0] [5]).2
      ![5, 5/2] ∧
    (![(5 : ℚ), 5/2] : Fin 2 → ℚ) 0 = 5 := by
  have hnd : ([(0 : Fin 2)].Nodup) := List.nodup_singleton 0
  have hsolves : SolvesSystem
      (apply_dirichlet (Matrix.of ![![2, -1], ![-1, 2]]) ![0, 0] [0] [5]).1
      (apply_dirichlet (Matrix.of ![![2, -1], ![-1, 2]]) ![0, 0] [0] [5]).2
      ![5, 5/2] := by
    show Matrix.mulVec _ _ = _
    funext i
    fin_cases i <;>
      · simp only [apply_dirichlet, dirichletStep, List.zip_cons_cons, List.zip_nil_right,
          List.foldl_cons, List.foldl_nil, Matrix.mulVec, Matrix.dotProduct,
          Fin.sum_univ_two, Matrix.of_apply]
        norm_num [Function.update, Matrix.cons_val_zero, Matrix.cons_val_one,
          Matrix.head_cons]
  exact ⟨hnd, hsolves,
    (c2_dirichlet_exact (Matrix.of ![![2, -1], ![-1, 2]]) ![0, 0] [0] [5] hnd).1
      ![5, 5/2] hsolves (0, 5) (by simp)⟩

theorem heatFluxStep_valid {n : ℕ} (nodes : Fin n → PtR)
    (elems : List (Fin n × Fin n × Fin n)) (bc : ℕ × ℕ × ℝ) (f : Fin n → ℝ)
    (hv : ValidFluxBC elems bc) :
    heatFluxStep nodes elems bc f =
      some (fun j => f j + heatFluxContrib nodes elems bc j) := by
  obtain ⟨conn, en, hconn, hen, hne⟩ := hv
  unfold heatFluxStep heatFluxContrib
  rw [hconn, hen]
  simp only [Option.bind_eq_bind, Option.some_bind, Option.some.injEq]
  funext j
  by_cases h2 : j = elemConn conn en.2
  · subst h2
    rw [Function.update_same, if_neg (fun h => hne h.symm), if_pos rfl]
    ring
  · rw [Function.update_noteq h2]
    by_cases h1 : j = elemConn conn en.1
    · subst h1
      rw [Function.update_same, if_pos rfl, if_neg h2]
      ring
    · rw [Function.update_noteq h1, if_neg h1, if_neg h2]
      ring

/-- C8: for a list of valid Neumann BCs, `apply_heat_flux` succeeds and the
resulting load vector is the input plus, at every node, the sum over the BCs
of q·L/2 at each of that BC's two edge nodes (`heatFluxContrib` is 0 at
every other node, so all other entries are unchanged); the function does not
receive K at all, so K is not modified. -/
theorem c8_heat_flux_adds (n : ℕ) (nodes : Fin n → PtR)
    (elems : List (Fin n × Fin n × Fin n)) (bcs : List (ℕ × ℕ × ℝ)) (f : Fin n → ℝ)
    (hvalid : ∀ bc ∈ bcs, ValidFluxBC elems bc) :
    apply_heat_flux nodes elems bcs f =
      .ok (fun j => f j + (bcs.map fun bc => heatFluxContrib nodes elems bc j).sum) ∧
    ∀ j : Fin n, (∀ bc ∈ bcs, heatFluxContrib nodes elems bc j = 0) →
      (fun j => f j + (bcs.map fun bc => heatFluxContrib nodes elems bc j).sum) j = f j := by
  constructor
  · induction bcs generalizing f with
    | nil => simp [apply_heat_flux]
    | cons bc rest ih =>
      have hstep := heatFluxStep_valid nodes elems bc f (hvalid bc (List.mem_cons_self bc rest))
      show (match heatFluxStep nodes elems bc f with
        | some f' => apply_heat_flux nodes elems rest f'
        | none => .error f) = _
      rw [hstep]
      show apply_heat_flux nodes elems rest (fun j => f j + heatFluxContrib nodes elems bc j) = _
      rw [ih (fun j => f j + heatFluxContrib nodes elems bc j)
        (fun b hb => hvalid b (List.mem_cons_of_mem bc hb))]
      congr 1
      funext j
      simp only [List.map_cons, List.sum_cons]
      ring
  · intro j hz
    have : (bcs.map fun bc => heatFluxContrib nodes elems bc j) =
        bcs.map fun _ => (0 : ℝ) := List.map_congr_left hz
    simp [this]

/-- C8 witness: a single unit-length edge BC with q = 2 on the reference
triangle adds 1 to f at nodes 0 and 1. -/
theorem c8_witness :
    (∀ bc ∈ [((0 : ℕ), (1 : ℕ), (2 : ℝ))],
      ValidFluxBC [((0 : Fin 3), (1 : Fin 3), (2 : Fin 3))] bc) ∧
    apply_heat_flux ![((0 : ℝ), (0 : ℝ)), (1, 0), (0, 1)]
        [((0 : Fin 3), (1 : Fin 3), (2 : Fin 3))] [(0, 1, 2)] (fun _ => 0) =
      .ok (fun j => (fun _ => (0 : ℝ)) j +
        ([((0 : ℕ), (1 : ℕ), (2 : ℝ))].map fun bc =>
          heatFluxContrib ![((0 : ℝ), (0 : ℝ)), (1, 0), (0, 1)]
            [((0 : Fin 3), (1 : Fin 3), (2 : Fin 3))] bc j).sum) := by
  have hv : ∀ bc ∈ [((0 : ℕ), (1 : ℕ), (2 : ℝ))],
      ValidFluxBC [((0 : Fin 3), (1 : Fin 3), (2 : Fin 3))] bc := by
    intro bc hbc
    rcases List.mem_singleton.mp hbc with rfl
    exact ⟨((0 : Fin 3), (1 : Fin 3), (2 : Fin 3)), ((0 : Fin 3), (1 : Fin 3)),
      rfl, rfl, by decide⟩
  exact ⟨hv, (c8_heat_flux_adds 3 _ _ _ _ hv).1⟩

/-- C3 (amended): when the BC list contains an entry whose local edge id is
outside {1,2,3} (and whose element id is in range, so the edge lookup is the
failing step), `apply_heat_flux` fails — but the load vector the caller sees
is the one already updated by every BC processed earlier in the list, not the
original `f`, because `f` is mutated in place. -/
theorem c3_flux_invalid_edge {n : ℕ} (nodes : Fin n → PtR)
    (elems : List (Fin n × Fin n × Fin n)) (pre : List (ℕ × ℕ × ℝ))
    (bad : ℕ × ℕ × ℝ) (rest : List (ℕ × ℕ × ℝ)) (f g : Fin n → ℝ)
    (hpre : apply_heat_flux nodes elems pre f = .ok g)
    (hel : bad.1 < elems.length)
    (hedge : bad.2.1 ≠ 1 ∧ bad.2.1 ≠ 2 ∧ bad.2.1 ≠ 3) :
    apply_heat_flux nodes elems (pre ++ bad :: rest) f = .error g := by
  have hbadstep : ∀ f0 : Fin n → ℝ, heatFluxStep nodes elems bad f0 = none := by
    intro f0
    unfold heatFluxStep
    rw [List.getElem?_eq_getElem hel]
    have : edgeTable bad.2.1 = none := by
      unfold edgeTable
      rw [if_neg hedge.1, if_neg hedge.2.1, if_neg hedge.2.2]
    rw [this]
    rfl
  induction pre generalizing f with
  | nil =>
    have hfg : f = g := by
      simpa [apply_heat_flux] using hpre
    subst hfg
    show (match heatFluxStep nodes elems bad f with
      | some f' => apply_heat_flux nodes elems rest f'
      | none => .error f) = .error f
    rw [hbadstep f]
  | cons p pre' ih =>
    revert hpre
    show (match heatFluxStep nodes elems p f with
      | some f' => apply_heat_flux nodes elems pre' f'
      | none => .error f) = .ok g →
      (match heatFluxStep nodes elems p f with
      | some f' => apply_heat_flux nodes elems (pre' ++ bad :: rest) f'
      | none => .error f) = .error g
    cases hstep : heatFluxStep nodes elems p f with
    | some f' => exact fun hpre' => ih f' hpre'
    | none => intro hpre'; cases hpre'

theorem c3_scenario_step1 :
    heatFluxStep nodesT elemsT (0, 1, 2) (fun _ => 0) = some fluxPartial := by
  unfold heatFluxStep elemsT
  show (Option.bind (some ((0 : Fin 3), (1 : Fin 3), (2 : Fin 3))) _) = _
  simp only [Option.some_bind]
  show (Option.bind (edgeTable 1) _) = _
  rw [show edgeTable 1 = some (0, 1) from rfl]
  simp only [Option.some_bind, Option.some.injEq]
  have hL : hypot (1 : ℝ) 0 = 1 := by
    unfold hypot
    norm_num
  funext j
  unfold fluxPartial
  fin_cases j <;>
    · simp only [elemConn, nodesT, Function.update, Matrix.cons_val_zero,
        Matrix.cons_val_one, Matrix.head_cons]
      norm_num [hL, Fin.ext_iff]

/-- C3 counterexample: BC list [(elem 0, edge 1, q = 2), (elem 0, edge 4, q = 1)]
on the reference triangle: the call fails on the second BC, and the load
vector visible to the caller has already been changed by the first BC
(entries 0 and 1 became q·L/2 = 1), so it is not unchanged. -/
theorem c3_counterexample :
    apply_heat_flux nodesT elemsT [(0, 1, 2), (0, 4, 1)] (fun _ => 0) =
      .error fluxPartial ∧ fluxPartial ≠ (fun _ => 0) := by
  constructor
  · show (match heatFluxStep nodesT elemsT (0, 1, 2) (fun _ => 0) with
      | some f' => apply_heat_flux nodesT elemsT [(0, 4, 1)] f'
      | none => .error (fun _ => 0)) = _
    rw [c3_scenario_step1]
    show (match heatFluxStep nodesT elemsT (0, 4, 1) fluxPartial with
      | some f' => apply_heat_flux nodesT elemsT [] f'
      | none => .error fluxPartial) = _
    have hnone : heatFluxStep nodesT elemsT (0, 4, 1) fluxPartial = none := by
      unfold heatFluxStep elemsT
      rfl
    rw [hnone]
  · intro hcontra
    have h0 := congrFun hcontra 0
    unfold fluxPartial at h0
    norm_num at h0

/-- C3 witness: empty prefix, then the invalid edge id 4 — the call fails and
(with nothing processed earlier) the carried state is the original f. -/
theorem c3_witness :
    apply_heat_flux ![((0 : ℝ), (0 : ℝ)), (1, 0), (0, 1)]
        [((0 : Fin 3), (1 : Fin 3), (2 : Fin 3))] [] (fun _ => (0 : ℝ)) =
      .ok (fun _ => (0 : ℝ)) ∧
    (0 : ℕ) < 1 ∧ ((4 : ℕ) ≠ 1 ∧ (4 : ℕ) ≠ 2 ∧ (4 : ℕ) ≠ 3) ∧
    apply_heat_flux ![((0 : ℝ), (0 : ℝ)), (1, 0), (0, 1)]
        [((0 : Fin 3), (1 : Fin 3), (2 : Fin 3))]
        ([] ++ (0, 4, 1) :: []) (fun _ => (0 : ℝ)) = .error (fun _ => (0 : ℝ)) := by
  refine ⟨rfl, by norm_num, by norm_num, ?_⟩
  exact c3_flux_invalid_edge _ _ [] (0, 4, 1) [] _ _ rfl (by norm_num) (by norm_num)

theorem update_two_eq {n : ℕ} (f : Fin n → ℝ) (I J : Fin n) (c : ℝ) (hIJ : I ≠ J) :
    Function.update (Function.update f I (f I + c)) J
      (Function.update f I (f I + c) J + c) =
      fun j => f j + (if j = I ∨ j = J then c else 0) := by
  funext j
  by_cases h2 : j = J
  · subst h2
    rw [Function.update_same, Function.update_noteq (Ne.symm hIJ),
      if_pos (Or.inr rfl)]
  · rw [Function.update_noteq h2]
    by_cases h1 : j = I
    · subst h1
      rw [Function.update_same, if_pos (Or.inl rfl)]
    · rw [Function.update_noteq h1, if_neg (by tauto), add_zero]

theorem addEntry_four_eq {n : ℕ} (K : Matrix (Fin n) (Fin n) ℝ) (I J : Fin n)
    (c : ℝ) (hIJ : I ≠ J) :
    addEntry (addEntry (addEntry (addEntry K I I (c * 2)) I J (c * 1)) J I (c * 1))
        J J (c * 2) =
      Matrix.of fun a b => K a b +
        c * ((if a = I ∧ b = I then 2 else 0) + (if a = I ∧ b = J then 1 else 0) +
          (if a = J ∧ b = I then 1 else 0) + (if a = J ∧ b = J then 2 else 0)) := by
  funext a b
  simp only [addEntry, Matrix.of_apply]
  split_ifs <;> simp_all <;> ring

/-- C7: a Robin BC with a valid element, a local edge id resolved by the
edge table, and distinct global edge nodes adds (h·L/6)·[[2,1],[1,2]] to the
K entries at the two global edge nodes and h·T∞·L/2 to f at each of them,
leaving all other entries unchanged; consequently with h = 0 both K and f
are returned unchanged. -/
theorem c7_convection_adds {n : ℕ} (nodes : Fin n → PtR)
    (elems : List (Fin n × Fin n × Fin n)) (e edge : ℕ) (h Tinf : ℝ)
    (K : Matrix (Fin n) (Fin n) ℝ) (f : Fin n → ℝ)
    (conn : Fin n × Fin n × Fin n) (en : Fin 3 × Fin 3)
    (hconn : elems[e]? = some conn) (hen : edgeTable edge = some en)
    (hIJ : elemConn conn en.1 ≠ elemConn conn en.2) :
    apply_convection nodes elems [(e, edge, h, Tinf)] K f =
      some
        (Matrix.of fun a b => K a b +
          h * edgeL nodes conn en / 6 *
            ((if a = elemConn conn en.1 ∧ b = elemConn conn en.1 then 2 else 0) +
             (if a = elemConn conn en.1 ∧ b = elemConn conn en.2 then 1 else 0) +
             (if a = elemConn conn en.2 ∧ b = elemConn conn en.1 then 1 else 0) +
             (if a = elemConn conn en.2 ∧ b = elemConn conn en.2 then 2 else 0)),
         fun j => f j +
           (if j = elemConn conn en.1 ∨ j = elemConn conn en.2
            then h * Tinf * edgeL nodes conn en / 2 else 0)) ∧
    (h = 0 → apply_convection nodes elems [(e, edge, h, Tinf)] K f = some (K, f)) := by
  have hstep : convectionStep nodes elems (e, edge, h, Tinf) (K, f) =
      some
        (addEntry (addEntry
            (addEntry (addEntry K (elemConn conn en.1) (elemConn conn en.1)
                (h * edgeL nodes conn en / 6 * 2))
              (elemConn conn en.1) (elemConn conn en.2) (h * edgeL nodes conn en / 6 * 1))
            (elemConn conn en.2) (elemConn conn en.1) (h * edgeL nodes conn en / 6 * 1))
          (elemConn conn en.2) (elemConn conn en.2) (h * edgeL nodes conn en / 6 * 2),
         Function.update
           (Function.update f (elemConn conn en.1)
             (f (elemConn conn en.1) + h * Tinf * edgeL nodes conn en / 2))
           (elemConn conn en.2)
           (Function.update f (elemConn conn en.1)
               (f (elemConn conn en.1) + h * Tinf * edgeL nodes conn en / 2)
             (elemConn conn en.2) + h * Tinf * edgeL nodes conn en / 2)) := by
    unfold convectionStep
    rw [hconn, hen]
    rfl
  have hmain : apply_convection nodes elems [(e, edge, h, Tinf)] K f =
      some
        (Matrix.of fun a b => K a b +
          h * edgeL nodes conn en / 6 *
            ((if a = elemConn conn en.1 ∧ b = elemConn conn en.1 then 2 else 0) +
             (if a = elemConn conn en.1 ∧ b = elemConn conn en.2 then 1 else 0) +
             (if a = elemConn conn en.2 ∧ b = elemConn conn en.1 then 1 else 0) +
             (if a = elemConn conn en.2 ∧ b = elemConn conn en.2 then 2 else 0)),
         fun j => f j +
           (if j = elemConn conn en.1 ∨ j = elemConn conn en.2
            then h * Tinf * edgeL nodes conn en / 2 else 0)) := by
    show (match convectionStep nodes elems (e, edge, h, Tinf) (K, f) with
      | some Kf' => apply_convection nodes elems [] Kf'.1 Kf'.2
      | none => none) = _
    rw [hstep]
    show some _ = some _
    rw [addEntry_four_eq K (elemConn conn en.1) (elemConn conn en.2)
        (h * edgeL nodes conn en / 6) hIJ,
      update_two_eq f (elemConn conn en.1) (elemConn conn en.2)
        (h * Tinf * edgeL nodes conn en / 2) hIJ]
  refine ⟨hmain, fun hzero => ?_⟩
  subst hzero
  rw [hmain]
  refine congrArg some (Prod.ext ?_ ?_)
  · funext a b
    simp only [Matrix.of_apply]
    split_ifs <;> ring
  · funext j
    show f j + (if j = elemConn conn en.1 ∨ j = elemConn conn en.2
        then 0 * Tinf * edgeL nodes conn en / 2 else 0) = f j
    split_ifs <;> ring

/-- C7 witness: a Robin BC with h = 0 on the reference triangle leaves the
zero system unchanged. -/
theorem c7_witness :
    elemsT[(0 : ℕ)]? = some (0, 1, 2) ∧ edgeTable 1 = some (0, 1) ∧
    elemConn ((0 : Fin 3), (1 : Fin 3), (2 : Fin 3)) 0 ≠
      elemConn ((0 : Fin 3), (1 : Fin 3), (2 : Fin 3)) 1 ∧
    apply_convection nodesT elemsT [(0, 1, 0, 3)] 0 (fun _ => 0) =
      some (0, fun _ => 0) := by
  have hne : elemConn ((0 : Fin 3), (1 : Fin 3), (2 : Fin 3)) 0 ≠
      elemConn ((0 : Fin 3), (1 : Fin 3), (2 : Fin 3)) 1 := by decide
  exact ⟨rfl, rfl, hne,
    (c7_convection_adds nodesT elemsT 0 1 0 3 0 (fun _ => 0) (0, 1, 2) (0, 1)
      rfl rfl hne).2 rfl⟩

theorem mem_usedFold (elems : List (ℕ × ℕ × ℕ)) (s : Finset ℕ) (o : ℕ) :
    o ∈ elems.foldl (fun s t => insert t.1 (insert t.2.1 (insert t.2.2 s))) s ↔
      o ∈ s ∨ ∃ t ∈ elems, o = t.1 ∨ o = t.2.1 ∨ o = t.2.2 := by
  induction elems generalizing s with
  | nil => simp
  | cons t rest ih =>
    rw [List.foldl_cons, ih]
    simp only [Finset.mem_insert, List.mem_cons]
    aesop

theorem mem_usedNodes (elems : List (ℕ × ℕ × ℕ)) (o : ℕ) :
    o ∈ usedNodes elems ↔ ∃ t ∈ elems, o = t.1 ∨ o = t.2.1 ∨ o = t.2.2 := by
  rw [usedNodes, Finset.mem_sort, usedSet, mem_usedFold]
  simp

theorem usedNodes_sorted (elems : List (ℕ × ℕ × ℕ)) :
    (usedNodes elems).Sorted (· < ·) :=
  Finset.sort_sorted_lt _

theorem indexOf_lt_of_sorted_lt {l : List ℕ} (hs : l.Sorted (· < ·)) {a b : ℕ}
    (ha : a ∈ l) (hb : b ∈ l) (hab : a < b) : l.indexOf a < l.indexOf b := by
  have hia : l.indexOf a < l.length := List.indexOf_lt_length.mpr ha
  have hib : l.indexOf b < l.length := List.indexOf_lt_length.mpr hb
  by_contra hle
  push_neg at hle
  have hmono := hs.get_strictMono.monotone
  have : l.get ⟨l.indexOf b, hib⟩ ≤ l.get ⟨l.indexOf a, hia⟩ :=
    hmono (show (⟨l.indexOf b, hib⟩ : Fin l.length) ≤ ⟨l.indexOf a, hia⟩ from hle)
  rw [List.indexOf_get hia, List.indexOf_get hib] at this
  exact absurd hab (not_lt.mpr this)

/-- C9: `cleanup` returns exactly the remapped mesh (every element and every
boundary-edge group entry goes through the one `nodeMapping`, and the kept
node coordinates are those of the sorted used ids, preserving their relative
order); the new element node ids all lie in 0..N−1 where N is the number of
returned nodes; every new id in 0..N−1 is referenced by some returned
element; and the old→new mapping is strictly order-preserving on used ids. -/
theorem c9_cleanup_reindex (nodes : List Pt) (elems : List (ℕ × ℕ × ℕ))
    (bottom right top left inner : List EdgeRec) :
    (cleanup nodes elems bottom right top left inner =
      (cleanupNodes nodes elems, cleanupElems elems, remapEdges elems bottom,
       remapEdges elems right, remapEdges elems top, remapEdges elems left,
       remapEdges elems inner) ∧
     cleanupNodes nodes elems = (usedNodes elems).map (fun i => nodes.getD i (0, 0)) ∧
     (usedNodes elems).Sorted (· < ·)) ∧
    (∀ el ∈ cleanupElems elems,
      el.1 < (cleanupNodes nodes elems).length ∧
      el.2.1 < (cleanupNodes nodes elems).length ∧
      el.2.2 < (cleanupNodes nodes elems).length) ∧
    (∀ m, m < (cleanupNodes nodes elems).length →
      ∃ el ∈ cleanupElems elems, m = el.1 ∨ m = el.2.1 ∨ m = el.2.2) ∧
    (∀ o1 o2, o1 ∈ usedNodes elems → o2 ∈ usedNodes elems → o1 < o2 →
      nodeMapping elems o1 < nodeMapping elems o2) := by
  have hlen : (cleanupNodes nodes elems).length = (usedNodes elems).length :=
    List.length_map _ _
  have hmapmem : ∀ o, o ∈ usedNodes elems →
      nodeMapping elems o < (cleanupNodes nodes elems).length := by
    intro o ho
    rw [hlen]
    exact List.indexOf_lt_length.mpr ho
  refine ⟨⟨rfl, rfl, usedNodes_sorted elems⟩, ?_, ?_, ?_⟩
  · rintro el hel
    rw [cleanupElems, List.mem_map] at hel
    obtain ⟨t, ht, rfl⟩ := hel
    refine ⟨hmapmem _ ?_, hmapmem _ ?_, hmapmem _ ?_⟩
    · exact (mem_usedNodes elems t.1).mpr ⟨t, ht, Or.inl rfl⟩
    · exact (mem_usedNodes elems t.2.1).mpr ⟨t, ht, Or.inr (Or.inl rfl)⟩
    · exact (mem_usedNodes elems t.2.2).mpr ⟨t, ht, Or.inr (Or.inr rfl)⟩
  · intro m hm
    rw [hlen] at hm
    set o := (usedNodes elems).get ⟨m, hm⟩ with ho
    have homem : o ∈ usedNodes elems := List.get_mem _ m hm
    have hidx : nodeMapping elems o = m := by
      rw [nodeMapping, ho]
      exact List.get_indexOf (Finset.sort_nodup _ _) ⟨m, hm⟩
    obtain ⟨t, ht, hcase⟩ := (mem_usedNodes elems o).mp homem
    refine ⟨(nodeMapping elems t.1, nodeMapping elems t.2.1, nodeMapping elems t.2.2),
      List.mem_map.mpr ⟨t, ht, rfl⟩, ?_⟩
    rcases hcase with h | h | h
    · exact Or.inl (by rw [← hidx, h])
    · exact Or.inr (Or.inl (by rw [← hidx, h]))
    · exact Or.inr (Or.inr (by rw [← hidx, h]))
  · intro o1 o2 h1 h2 h12
    exact indexOf_lt_of_sorted_lt (usedNodes_sorted elems) h1 h2 h12

theorem flatMapRange_length {α : Type} (g : ℕ → List α) (L m : ℕ)
    (hg : ∀ x, (g x).length = L) : ((List.range m).flatMap g).length = m * L := by
  rw [List.length_flatMap]
  rw [show (List.map (List.length ∘ g) (List.range m)) =
    List.map (fun _ => L) (List.range m) from List.map_congr_left (fun a _ => hg a)]
  rw [List.map_const', List.sum_replicate, List.length_range, smul_eq_mul]

theorem flatMapRange_getD {α : Type} (d : α) (g : ℕ → List α) (L m j i : ℕ)
    (hg : ∀ x, (g x).length = L) (hj : j < m) (hi : i < L) :
    ((List.range m).flatMap g).getD (j * L + i) d = (g j).getD i d := by
  induction m with
  | zero => cases hj
  | succ m ih =>
    rw [List.range_succ, List.flatMap_append]
    rcases Nat.lt_succ_iff_lt_or_eq.mp hj with hj' | rfl
    · rw [List.getD_append]
      · exact ih hj'
      · calc j * L + i < j * L + L := by omega
          _ = (j + 1) * L := by ring
          _ ≤ m * L := Nat.mul_le_mul_right L hj'
          _ = ((List.range m).flatMap g).length := (flatMapRange_length g L m hg).symm
    · rw [List.getD_append_right]
      · rw [flatMapRange_length g L j hg]
        have : j * L + i - j * L = i := by omega
        rw [this]
        simp
      · rw [flatMapRange_length g L j hg]
        omega

theorem chimneyNodes_getD (nx ny i j : ℕ) (hi : i ≤ nx) (hj : j ≤ ny) :
    (chimneyNodes nx ny).getD (nid nx i j) (0, 0) =
      ((i : ℚ) * (OUTER_W / nx), (j : ℚ) * (OUTER_H / ny)) := by
  have hrow : ∀ x : ℕ, ((List.range (nx + 1)).map fun i : ℕ =>
      ((i : ℚ) * (OUTER_W / nx), (x : ℚ) * (OUTER_H / ny))).length = nx + 1 := by
    intro x
    rw [List.length_map, List.length_range]
  rw [chimneyNodes, nid]
  rw [flatMapRange_getD (0, 0) _ (nx + 1) (ny + 1) j i hrow
    (Nat.lt_succ_of_le hj) (Nat.lt_succ_of_le hi)]
  have hi' : i < ((List.range (nx + 1)).map fun i2 : ℕ =>
      ((i2 : ℚ) * (OUTER_W / nx), (j : ℚ) * (OUTER_H / ny))).length := by
    rw [List.length_map, List.length_range]
    omega
  rw [List.getD_eq_getElem _ _ hi', List.getElem_map, List.getElem_range]

/-- C10: for nx, ny ≥ 1, every triangle emitted by the chimney mesh
generator — both `(n1, n2, n4)` and `(n2, n3, n4)` of each surviving cell —
has strictly positive signed area (counter-clockwise winding), area
dx·dy/2 exactly, so it meets the solver's non-degeneracy precondition. -/
theorem c10_chimney_ccw (nx ny : ℕ) (h1 : 1 ≤ nx) (h2 : 1 ≤ ny) :
    ∀ el ∈ chimneyElems nx ny,
      0 < triangleArea ((chimneyNodes nx ny).getD el.1 (0, 0))
        ((chimneyNodes nx ny).getD el.2.1 (0, 0))
        ((chimneyNodes nx ny).getD el.2.2 (0, 0)) := by
  have hdx : (0 : ℚ) < OUTER_W / nx := by
    apply div_pos
    · norm_num [OUTER_W]
    · exact_mod_cast Nat.pos_of_ne_zero (by omega)
  have hdy : (0 : ℚ) < OUTER_H / ny := by
    apply div_pos
    · norm_num [OUTER_H]
    · exact_mod_cast Nat.pos_of_ne_zero (by omega)
  intro el hel
  rw [chimneyElems, List.mem_flatMap] at hel
  obtain ⟨j, hjr, hel⟩ := hel
  rw [List.mem_flatMap] at hel
  obtain ⟨i, hir, hel⟩ := hel
  rw [List.mem_range] at hjr hir
  rw [cellElems] at hel
  split at hel
  · cases hel
  · have hi1 : i ≤ nx := Nat.le_of_lt hir
    have hi2 : i + 1 ≤ nx := hir
    have hj1 : j ≤ ny := Nat.le_of_lt hjr
    have hj2 : j + 1 ≤ ny := hjr
    rcases List.mem_cons.mp hel with rfl | hel
    · rw [chimneyNodes_getD nx ny i j hi1 hj1, chimneyNodes_getD nx ny (i+1) j hi2 hj1,
        chimneyNodes_getD nx ny i (j+1) hi1 hj2, triangleArea_eq]
      have heq : (1/2 : ℚ) *
          ((((i+1 : ℕ) : ℚ) * (OUTER_W / nx) - (i : ℚ) * (OUTER_W / nx)) *
            (((j+1 : ℕ) : ℚ) * (OUTER_H / ny) - (j : ℚ) * (OUTER_H / ny)) -
           ((i : ℚ) * (OUTER_W / nx) - (i : ℚ) * (OUTER_W / nx)) *
            ((j : ℚ) * (OUTER_H / ny) - (j : ℚ) * (OUTER_H / ny))) =
          (OUTER_W / nx) * (OUTER_H / ny) * (1/2) := by
        push_cast
        ring
      rw [heq]
      positivity
    · rcases List.mem_singleton.mp hel with rfl
      rw [chimneyNodes_getD nx ny (i+1) j hi2 hj1,
        chimneyNodes_getD nx ny (i+1) (j+1) hi2 hj2,
        chimneyNodes_getD nx ny i (j+1) hi1 hj2, triangleArea_eq]
      have heq : (1/2 : ℚ) *
          ((((i+1 : ℕ) : ℚ) * (OUTER_W / nx) - ((i+1 : ℕ) : ℚ) * (OUTER_W / nx)) *
            (((j+1 : ℕ) : ℚ) * (OUTER_H / ny) - (j : ℚ) * (OUTER_H / ny)) -
           ((i : ℚ) * (OUTER_W / nx) - ((i+1 : ℕ) : ℚ) * (OUTER_W / nx)) *
            (((j+1 : ℕ) : ℚ) * (OUTER_H / ny) - (j : ℚ) * (OUTER_H / ny))) =
          (OUTER_W / nx) * (OUTER_H / ny) * (1/2) := by
        push_cast
        ring
      rw [heq]
      positivity

/-- C10 witness: on the 2×2 grid the first emitted triangle (0, 1, 3) has
positive signed area. -/
theorem c10_witness :
    (1 ≤ 2) ∧ (((0 : ℕ), (1 : ℕ), (3 : ℕ)) ∈ chimneyElems 2 2) ∧
    0 < triangleArea ((chimneyNodes 2 2).getD 0 (0, 0))
      ((chimneyNodes 2 2).getD 1 (0, 0)) ((chimneyNodes 2 2).getD 3 (0, 0)) := by
  have hmem : ((0 : ℕ), (1 : ℕ), (3 : ℕ)) ∈ chimneyElems 2 2 := by
    rw [chimneyElems]
    rw [show List.range 2 = [0, 1] by rfl]
    norm_num [cellElems, nid, OUTER_W, OUTER_H, HOLE_X1, HOLE_X2, HOLE_Y1, HOLE_Y2,
      List.flatMap_cons, List.flatMap_nil, List.mem_append, List.mem_cons]
  exact ⟨by norm_num, hmem, c10_chimney_ccw 2 2 (by norm_num) (by norm_num) (0, 1, 3) hmem⟩

end SEMFE
